import Mathlib

/- Shallow embedding of the entity-resolution core of the rosssale bot
   repository (src/scripts/bot.py and src/scripts/matcher.py), together
   with proofs about it.

   Conventions of the embedding:
   * Python strings are embedded as `List Char`.
   * Python `str.lower()` is modelled for the scripts the repository
     actually handles (ASCII Latin and Russian Cyrillic); other characters
     pass through unchanged.
   * Python `datetime` values are embedded as integer seconds; calendar
     dates (the `DD.MM.YYYY` cells) as integer day ordinals, so that
     `datetime.strptime(d, "%d.%m.%Y")` becomes `d * 86400` (midnight of
     that day).
   * `pandas` dataframes are embedded as a list of column names plus typed
     rows; a missing cell (NaN) is `none`.
   * The external `rapidfuzz` scorer `fuzz.WRatio` is not repository code;
     the matcher takes it as a parameter `scorer : List Char → List Char → ℚ`
     (rapidfuzz scores are floats in [0, 100]; only order and equality of
     scores matter here, so rationals embed them faithfully).
-/

namespace RossBot

/-- Whitespace test used by the model of Python `str.strip()`
    (space, tab, newline, carriage return, vertical tab, form feed). -/
def isWS (c : Char) : Bool :=
  c.toNat == 32 || c.toNat == 9 || c.toNat == 10 || c.toNat == 13 ||
    c.toNat == 11 || c.toNat == 12

/-- Model of Python `str.lower` at character level for the scripts used in
    the repository: ASCII `A`–`Z`, Cyrillic `А`–`Я` and `Ё`. -/
def charLower (c : Char) : Char :=
  if 65 ≤ c.toNat ∧ c.toNat ≤ 90 then Char.ofNat (c.toNat + 32)
  else if 1040 ≤ c.toNat ∧ c.toNat ≤ 1071 then Char.ofNat (c.toNat + 32)
  else if c.toNat = 1025 then Char.ofNat 1105
  else c

/-- Model of Python `str.strip()`: drop leading and trailing whitespace. -/
def pyStrip (l : List Char) : List Char :=
  ((l.dropWhile isWS).reverse.dropWhile isWS).reverse

/-- One pass of Python `text.replace("  ", " ")`: replace the
    non-overlapping occurrences of two spaces by one space, left to right. -/
def replacePairs : List Char → List Char
  | [] => []
  | [c] => [c]
  | c1 :: c2 :: rest =>
    if c1 = ' ' ∧ c2 = ' ' then ' ' :: replacePairs rest
    else c1 :: replacePairs (c2 :: rest)

/-- Boolean test that `n` is an initial segment of `h`. -/
def leadMatch : List Char → List Char → Bool
  | [], _ => true
  | _ :: _, [] => false
  | a :: as, b :: bs => a == b && leadMatch as bs

/-- Model of the Python substring test `n in h`. -/
def strIn (n : List Char) : List Char → Bool
  | [] => leadMatch n []
  | c :: t => leadMatch n (c :: t) || strIn n t

/-- Fuel-indexed model of the loop
    `while "  " in text: text = text.replace("  ", " ")` from `normalize`.
    The length of the string is enough fuel (each pass with a double space
    present strictly shrinks the string), see `collapseFuel_no_double`. -/
def collapseFuel : Nat → List Char → List Char
  | 0, l => l
  | n + 1, l => if strIn [' ', ' '] l then collapseFuel n (replacePairs l) else l

/-- The space-collapsing loop of `normalize`, run with enough fuel. -/
def collapseLoop (l : List Char) : List Char := collapseFuel l.length l

/-- Model of `normalize` from src/scripts/bot.py (textually identical in
    src/scripts/matcher.py): strip, lower-case, collapse double spaces.
    The `pd.isna` branch is in `normalizeCell`; here the input is an actual
    string, for which `str(text)` is the identity. -/
def normalize (text : List Char) : List Char :=
  collapseLoop ((pyStrip text).map charLower)

/-- Model of `normalize` applied to a dataframe cell: the `pd.isna` branch
    of the source returns the empty string. -/
def normalizeCell : Option (List Char) → List Char
  | none => []
  | some s => normalize s

/-- Character table of `transliterate_ru_to_en` from src/scripts/bot.py;
    unmapped characters pass through unchanged. -/
def translitChar (c : Char) : List Char :=
  match c with
  | 'а' => ['a'] | 'б' => ['b'] | 'в' => ['v'] | 'г' => ['g'] | 'д' => ['d']
  | 'е' => ['e'] | 'ё' => ['e'] | 'ж' => ['z', 'h'] | 'з' => ['z']
  | 'и' => ['i'] | 'й' => ['y'] | 'к' => ['k'] | 'л' => ['l'] | 'м' => ['m']
  | 'н' => ['n'] | 'о' => ['o'] | 'п' => ['p'] | 'р' => ['r'] | 'с' => ['s']
  | 'т' => ['t'] | 'у' => ['u'] | 'ф' => ['f'] | 'х' => ['h']
  | 'ц' => ['t', 's'] | 'ч' => ['c', 'h'] | 'ш' => ['s', 'h']
  | 'щ' => ['s', 'c', 'h'] | 'ъ' => [] | 'ы' => ['y'] | 'ь' => []
  | 'э' => ['e'] | 'ю' => ['y', 'u'] | 'я' => ['y', 'a']
  | _ => [c]

/-- Model of `transliterate_ru_to_en` from src/scripts/bot.py: the source
    iterates over `text.lower()` appending the table entry (or the
    character itself) for each character. -/
def transliterate_ru_to_en : List Char → List Char
  | [] => []
  | c :: t => translitChar (charLower c) ++ transliterate_ru_to_en t

/-- Model of `normalize_for_search` from src/scripts/bot.py. -/
def normalize_for_search (text : List Char) : List Char :=
  transliterate_ru_to_en (normalize text)

/-- Conversion of `Char.ofNat` back to the code point, for valid inputs. -/
theorem toNat_charOfNat (n : Nat) (h : n < 55296) : (Char.ofNat n).toNat = n := by
  rw [Char.ofNat, dif_pos (Or.inl h)]; rfl

/-- Lower-casing a character twice is the same as once. -/
theorem charLower_charLower (c : Char) : charLower (charLower c) = charLower c := by
  by_cases h1 : 65 ≤ c.toNat ∧ c.toNat ≤ 90
  · have e : charLower c = Char.ofNat (c.toNat + 32) := by
      unfold charLower; rw [if_pos h1]
    have ht : (Char.ofNat (c.toNat + 32)).toNat = c.toNat + 32 :=
      toNat_charOfNat _ (by omega)
    rw [e]; unfold charLower; rw [ht]
    rw [if_neg (by omega), if_neg (by omega), if_neg (by omega)]
  · by_cases h2 : 1040 ≤ c.toNat ∧ c.toNat ≤ 1071
    · have e : charLower c = Char.ofNat (c.toNat + 32) := by
        unfold charLower; rw [if_neg h1, if_pos h2]
      have ht : (Char.ofNat (c.toNat + 32)).toNat = c.toNat + 32 :=
        toNat_charOfNat _ (by omega)
      rw [e]; unfold charLower; rw [ht]
      rw [if_neg (by omega), if_neg (by omega), if_neg (by omega)]
    · by_cases h3 : c.toNat = 1025
      · have e : charLower c = Char.ofNat 1105 := by
          unfold charLower; rw [if_neg h1, if_neg h2, if_pos h3]
        have ht : (Char.ofNat 1105).toNat = 1105 := toNat_charOfNat _ (by omega)
        rw [e]; unfold charLower; rw [ht]
        rw [if_neg (by omega), if_neg (by omega), if_neg (by omega)]
      · have e : charLower c = c := by
          unfold charLower; rw [if_neg h1, if_neg h2, if_neg h3]
        rw [e]; exact e

/-- Lower-casing does not create or destroy whitespace. -/
theorem isWS_charLower (c : Char) : isWS (charLower c) = isWS c := by
  by_cases h1 : 65 ≤ c.toNat ∧ c.toNat ≤ 90
  · have e : charLower c = Char.ofNat (c.toNat + 32) := by
      unfold charLower; rw [if_pos h1]
    have ht : (Char.ofNat (c.toNat + 32)).toNat = c.toNat + 32 :=
      toNat_charOfNat _ (by omega)
    have l1 : isWS (Char.ofNat (c.toNat + 32)) = false := by
      unfold isWS; rw [ht]; simp; omega
    have l2 : isWS c = false := by unfold isWS; simp; omega
    rw [e, l1, l2]
  · by_cases h2 : 1040 ≤ c.toNat ∧ c.toNat ≤ 1071
    · have e : charLower c = Char.ofNat (c.toNat + 32) := by
        unfold charLower; rw [if_neg h1, if_pos h2]
      have ht : (Char.ofNat (c.toNat + 32)).toNat = c.toNat + 32 :=
        toNat_charOfNat _ (by omega)
      have l1 : isWS (Char.ofNat (c.toNat + 32)) = false := by
        unfold isWS; rw [ht]; simp; omega
      have l2 : isWS c = false := by unfold isWS; simp; omega
      rw [e, l1, l2]
    · by_cases h3 : c.toNat = 1025
      · have e : charLower c = Char.ofNat 1105 := by
          unfold charLower; rw [if_neg h1, if_neg h2, if_pos h3]
        have ht : (Char.ofNat 1105).toNat = 1105 := toNat_charOfNat _ (by omega)
        have l1 : isWS (Char.ofNat 1105) = false := by
          unfold isWS; rw [ht]; simp
        have l2 : isWS c = false := by unfold isWS; simp; omega
        rw [e, l1, l2]
      · have e : charLower c = c := by
          unfold charLower; rw [if_neg h1, if_neg h2, if_neg h3]
        rw [e]

/-- Unfolded form of `normalize`, used to move between the loop and its fuel. -/
theorem normalize_def' (s : List Char) :
    normalize s = collapseFuel ((pyStrip s).map charLower).length
      ((pyStrip s).map charLower) := rfl

/-- One replacement pass only keeps characters of the input. -/
theorem mem_replacePairs {c : Char} : ∀ l : List Char, c ∈ replacePairs l → c ∈ l := by
  intro l
  induction l using replacePairs.induct with
  | case1 => simp [replacePairs]
  | case2 d => simp [replacePairs]
  | case3 c1 c2 rest h ih =>
    rw [replacePairs, if_pos h]
    intro hm
    rcases List.mem_cons.1 hm with h1 | h1
    · subst h1; simp [h.1]
    · simp [ih h1]
  | case4 c1 c2 rest h ih =>
    rw [replacePairs, if_neg h]
    intro hm
    rcases List.mem_cons.1 hm with h1 | h1
    · simp [h1]
    · simp at ih ⊢
      rcases ih h1 with h2 | h2
      · simp [h2]
      · simp [h2]

/-- One replacement pass never lengthens the string. -/
theorem length_replacePairs_le : ∀ l : List Char, (replacePairs l).length ≤ l.length := by
  intro l
  induction l using replacePairs.induct with
  | case1 => simp [replacePairs]
  | case2 d => simp [replacePairs]
  | case3 c1 c2 rest h ih => rw [replacePairs, if_pos h]; simp; omega
  | case4 c1 c2 rest h ih => rw [replacePairs, if_neg h]; simp at ih ⊢; omega

/-- With a double space present, one replacement pass strictly shrinks
    the string; this bounds the fuel of the collapsing loop. -/
theorem length_replacePairs_lt : ∀ l : List Char,
    strIn [' ', ' '] l = true → (replacePairs l).length < l.length := by
  intro l
  induction l using replacePairs.induct with
  | case1 => intro h; simp [strIn, leadMatch] at h
  | case2 d => intro h; simp [strIn, leadMatch] at h
  | case3 c1 c2 rest h ih =>
    intro _
    rw [replacePairs, if_pos h]
    have := length_replacePairs_le rest
    simp; omega
  | case4 c1 c2 rest h ih =>
    intro hs
    rw [replacePairs, if_neg h]
    rw [strIn, Bool.or_eq_true] at hs
    rcases hs with h1 | h1
    · exfalso
      apply h
      simp [leadMatch] at h1
      exact ⟨h1.1.symm, h1.2.symm⟩
    · have := ih h1
      simp at this ⊢
      omega

/-- With the string length as fuel, the collapsing loop reaches a string
    with no double space (the loop's exit condition). -/
theorem collapseFuel_no_double : ∀ (fuel : Nat) (l : List Char), l.length ≤ fuel →
    strIn [' ', ' '] (collapseFuel fuel l) = false := by
  intro fuel
  induction fuel with
  | zero =>
    intro l hl
    have : l = [] := List.eq_nil_of_length_eq_zero (Nat.le_zero.1 hl)
    subst this; rfl
  | succ n ih =>
    intro l hl
    rw [collapseFuel]
    cases hb : strIn [' ', ' '] l with
    | false => rw [if_neg (by simp)]; exact hb
    | true =>
      rw [if_pos rfl]
      apply ih
      have := length_replacePairs_lt l hb
      omega

/-- The collapsing loop only keeps characters of the input. -/
theorem mem_collapseFuel {c : Char} : ∀ (fuel : Nat) (l : List Char),
    c ∈ collapseFuel fuel l → c ∈ l := by
  intro fuel
  induction fuel with
  | zero => intro l h; exact h
  | succ n ih =>
    intro l h
    rw [collapseFuel] at h
    by_cases hb : strIn [' ', ' '] l = true
    · rw [if_pos hb] at h; exact mem_replacePairs l (ih _ h)
    · rwa [if_neg hb] at h

/-- One replacement pass preserves the first character. -/
theorem head?_replacePairs : ∀ l : List Char, (replacePairs l).head? = l.head? := by
  intro l
  induction l using replacePairs.induct with
  | case1 => rfl
  | case2 d => rfl
  | case3 c1 c2 rest h ih => rw [replacePairs, if_pos h]; simp [h.1]
  | case4 c1 c2 rest h ih => rw [replacePairs, if_neg h]; rfl

/-- One replacement pass sends nonempty strings to nonempty strings. -/
theorem replacePairs_ne_nil : ∀ l : List Char, l ≠ [] → replacePairs l ≠ [] := by
  intro l hl
  match l with
  | [] => exact absurd rfl hl
  | [c] => simp [replacePairs]
  | c1 :: c2 :: rest =>
    rw [replacePairs]
    by_cases h : c1 = ' ' ∧ c2 = ' '
    · rw [if_pos h]; simp
    · rw [if_neg h]; simp

/-- Auxiliary form of `getLast?` on a cons cell with a nonempty tail. -/
theorem getLast?_cons_ne (a : Char) (l : List Char) (h : l ≠ []) :
    (a :: l).getLast? = l.getLast? := by
  cases l with
  | nil => exact absurd rfl h
  | cons b t => simp [List.getLast?_cons_cons]

/-- One replacement pass preserves the last character. -/
theorem getLast?_replacePairs : ∀ l : List Char,
    (replacePairs l).getLast? = l.getLast? := by
  intro l
  induction l using replacePairs.induct with
  | case1 => rfl
  | case2 d => rfl
  | case3 c1 c2 rest h ih =>
    rw [replacePairs, if_pos h]
    by_cases hr : rest = []
    · subst hr
      rw [List.getLast?_cons_cons]
      simp [replacePairs, h.2, List.getLast?]
    · rw [getLast?_cons_ne _ _ (replacePairs_ne_nil rest hr), ih,
        getLast?_cons_ne c1 (c2 :: rest) (by simp), getLast?_cons_ne c2 rest hr]
  | case4 c1 c2 rest h ih =>
    rw [replacePairs, if_neg h]
    rw [getLast?_cons_ne _ _ (replacePairs_ne_nil _ (by simp)), ih,
      getLast?_cons_ne c1 (c2 :: rest) (by simp)]

/-- The collapsing loop preserves the first character. -/
theorem head?_collapseFuel : ∀ (fuel : Nat) (l : List Char),
    (collapseFuel fuel l).head? = l.head? := by
  intro fuel
  induction fuel with
  | zero => intro l; rfl
  | succ n ih =>
    intro l
    rw [collapseFuel]
    by_cases hb : strIn [' ', ' '] l = true
    · rw [if_pos hb, ih, head?_replacePairs]
    · rw [if_neg hb]

/-- The collapsing loop preserves the last character. -/
theorem getLast?_collapseFuel : ∀ (fuel : Nat) (l : List Char),
    (collapseFuel fuel l).getLast? = l.getLast? := by
  intro fuel
  induction fuel with
  | zero => intro l; rfl
  | succ n ih =>
    intro l
    rw [collapseFuel]
    by_cases hb : strIn [' ', ' '] l = true
    · rw [if_pos hb, ih, getLast?_replacePairs]
    · rw [if_neg hb]

/-- A string without double spaces is a fixed point of the collapsing loop. -/
theorem collapseFuel_of_no_double : ∀ (fuel : Nat) (l : List Char),
    strIn [' ', ' '] l = false → collapseFuel fuel l = l := by
  intro fuel l h
  cases fuel with
  | zero => rfl
  | succ n => rw [collapseFuel, if_neg (by simp [h])]

/-- Mapping a function that fixes every element of a list is the identity. -/
theorem map_self_of_fix {f : Char → Char} : ∀ l : List Char,
    (∀ c ∈ l, f c = c) → l.map f = l := by
  intro l h
  induction l with
  | nil => rfl
  | cons c t ih =>
    simp only [List.map_cons]
    rw [h c (by simp), ih (fun d hd => h d (by simp [hd]))]

/-- The head surviving `dropWhile p` falsifies `p`. -/
theorem head?_dropWhile_false {p : Char → Bool} : ∀ (l : List Char) (c : Char),
    (l.dropWhile p).head? = some c → p c = false := by
  intro l
  induction l with
  | nil => intro c h; simp [List.dropWhile] at h
  | cons a t ih =>
    intro c h
    rw [List.dropWhile_cons] at h
    by_cases hp : p a = true
    · rw [if_pos hp] at h; exact ih c h
    · rw [if_neg hp] at h
      have : a = c := by simpa using h
      subst this
      simpa using hp

/-- A stripped string does not begin with whitespace. -/
theorem head?_pyStrip_not_ws : ∀ (l : List Char) (c : Char),
    (pyStrip l).head? = some c → isWS c = false := by
  intro l c h
  unfold pyStrip at h
  rw [List.head?_reverse] at h
  rcases List.dropWhile_suffix (l := (l.dropWhile isWS).reverse) isWS with ⟨pre, hpre⟩
  by_cases hy : (l.dropWhile isWS).reverse.dropWhile isWS = []
  · rw [hy] at h; simp at h
  · rw [← List.getLast?_append_of_ne_nil pre hy, hpre, List.getLast?_reverse] at h
    exact head?_dropWhile_false _ c h

/-- A stripped string does not end with whitespace. -/
theorem getLast?_pyStrip_not_ws : ∀ (l : List Char) (c : Char),
    (pyStrip l).getLast? = some c → isWS c = false := by
  intro l c h
  unfold pyStrip at h
  rw [List.getLast?_reverse] at h
  exact head?_dropWhile_false _ c h

/-- Dropping a false-at-the-head predicate does nothing. -/
theorem dropWhile_eq_self_of_head {p : Char → Bool} (l : List Char)
    (h : ∀ c, l.head? = some c → p c = false) : l.dropWhile p = l := by
  cases l with
  | nil => rfl
  | cons a t => rw [List.dropWhile_cons, if_neg (by simp [h a rfl])]

/-- A string with no surrounding whitespace is a fixed point of strip. -/
theorem pyStrip_eq_self (l : List Char)
    (h1 : ∀ c, l.head? = some c → isWS c = false)
    (h2 : ∀ c, l.getLast? = some c → isWS c = false) : pyStrip l = l := by
  unfold pyStrip
  rw [dropWhile_eq_self_of_head l h1]
  rw [dropWhile_eq_self_of_head l.reverse
    (fun c hc => h2 c (by rwa [List.head?_reverse] at hc))]
  exact List.reverse_reverse l

/-- Mapping over a list commutes with taking the last element. -/
theorem getLast?_map (f : Char → Char) (l : List Char) :
    (l.map f).getLast? = l.getLast?.map f := by
  rw [← List.head?_reverse, ← List.map_reverse, List.head?_map, List.head?_reverse]

/-- Claim C9: `normalize` is idempotent — `normalize (normalize s) = normalize s`
    for every string `s`. The output of `normalize` is stripped, fully
    lower-cased and free of double spaces, and each of the three stages
    fixes such strings. -/
theorem normalize_idempotent (s : List Char) :
    normalize (normalize s) = normalize s := by
  have hlow : ∀ c ∈ normalize s, charLower c = c := by
    intro c hc
    rw [normalize_def'] at hc
    have hm : c ∈ (pyStrip s).map charLower := mem_collapseFuel _ _ hc
    obtain ⟨a, _, rfl⟩ := List.mem_map.1 hm
    exact charLower_charLower a
  have hstrip : pyStrip (normalize s) = normalize s := by
    apply pyStrip_eq_self
    · intro c hc
      rw [normalize_def', head?_collapseFuel, List.head?_map] at hc
      obtain ⟨a, ha, rfl⟩ := Option.map_eq_some'.1 hc
      rw [isWS_charLower]
      exact head?_pyStrip_not_ws s a ha
    · intro c hc
      rw [normalize_def', getLast?_collapseFuel, getLast?_map] at hc
      obtain ⟨a, ha, rfl⟩ := Option.map_eq_some'.1 hc
      rw [isWS_charLower]
      exact getLast?_pyStrip_not_ws s a ha
  have hnd : strIn [' ', ' '] (normalize s) = false := by
    rw [normalize_def']
    exact collapseFuel_no_double _ _ le_rfl
  show collapseLoop ((pyStrip (normalize s)).map charLower) = normalize s
  rw [hstrip, map_self_of_fix _ hlow]
  unfold collapseLoop
  exact collapseFuel_of_no_double _ _ hnd

/-- Fuel-indexed model of Python `s.replace(old, new)`: replace all
    non-overlapping occurrences, left to right. In the source `old` is
    always a nonempty alias key, so each step consumes at least one
    character of `s` and the length of `s` is enough fuel. -/
def strReplaceFuel (old new : List Char) : Nat → List Char → List Char
  | 0, s => s
  | fuel + 1, s =>
    if old.isEmpty then s
    else if leadMatch old s then new ++ strReplaceFuel old new fuel (s.drop old.length)
    else
      match s with
      | [] => []
      | c :: t => c :: strReplaceFuel old new fuel t

/-- Model of Python `s.replace(old, new)`, run with enough fuel. -/
def strReplace (s old new : List Char) : List Char := strReplaceFuel old new s.length s

/-- The `ALIASES` dictionary of src/scripts/bot.py, in insertion order. -/
def ALIASES : List (List Char × List Char) := [
  ("клауд".toList, "cloud".toList),
  ("клауд тауэр".toList, "cloud tower".toList),
  ("тауэр".toList, "tower".toList),
  ("гранд".toList, "grand".toList),
  ("гарден".toList, "garden".toList),
  ("вест гарден".toList, "west garden".toList),
  ("вест".toList, "west".toList),
  ("резиденс".toList, "residences".toList),
  ("пиннакл".toList, "pinnacle".toList),
  ("марина".toList, "marina".toList),
  ("канал".toList, "canal".toList),
  ("фронт".toList, "front".toList),
  ("панорамик".toList, "panoramic".toList),
  ("стелла".toList, "stella".toList),
  ("марис".toList, "maris".toList),
  ("вида".toList, "vida".toList),
  ("крик".toList, "creek".toList),
  ("бич".toList, "beach".toList),
  ("поклонная".toList, "покланная".toList),
  ("праймпарк".toList, "прайм парк".toList),
  ("прайм".toList, "прайм парк".toList),
  ("артхаус".toList, "артхаус".toList),
  ("веллтон".toList, "веллтон тауэрс".toList),
  ("квартал на ленинском".toList, "жк квартал на ленинском".toList)]

/-- The `SYNONYMS` groups of src/scripts/bot.py, in configured order. -/
def SYNONYMS : List (List (List Char)) := [
  ["Прайм парк".toList, "Prime Park".toList],
  ["Шагал".toList, "Shagal".toList],
  ["Соул".toList, "Soul".toList],
  ["Слава".toList, "Slava".toList],
  ["Ракурс".toList, "Rakurs".toList],
  ["Принципал плаза".toList, "Principal Plaza".toList],
  ["Примавера новая".toList, "Primavera".toList],
  ["Синатра".toList, "Sinatra вторичка".toList],
  ["Балчуг резиденс".toList, "Balchug Residence".toList],
  ["Сидней Сити".toList, "Sidney City".toList, "Sydney city".toList],
  ["Башня Федерация".toList, "Башня Федерация вторичка".toList],
  ["Садовые кварталы".toList, "Вторичка Садовые кварталы".toList],
  ["Династия".toList, "Вторичка Династия".toList],
  ["Knightsbridge Private Park".toList, "Вторичка Knightsbridge Private Park".toList],
  ["Остров".toList, "Остров Вторичка".toList],
  ["ЖК Крылья".toList, "Крылья вторичка".toList],
  ["ЖК Таврический".toList, "Таврический".toList],
  ["Дом в Николино".toList, "Николино".toList],
  ["Башня Город Столиц".toList, "Город Столиц".toList],
  ["Level Мичуринский".toList, "Мичуринский".toList],
  ["Canal Front".toList, "Canal Front Residences 3".toList],
  ["Поклонная 9".toList, "Поклонная, 9".toList, "Покланная 9".toList],
  ["Lucky".toList, "Lacky".toList]]

/-- Loop body of `apply_aliases`:
    `for alias, replacement in ALIASES.items(): ...`, appending the
    substituted query when the key occurs as a proper substring and the
    result is not already among the variants. -/
def aliasLoop (query_norm : List Char) :
    List (List Char × List Char) → List (List Char) → List (List Char)
  | [], variants => variants
  | (ali, repl) :: rest, variants =>
    if strIn ali query_norm ∧ ¬ ali = query_norm then
      if strReplace query_norm ali repl ∈ variants then aliasLoop query_norm rest variants
      else aliasLoop query_norm rest (variants ++ [strReplace query_norm ali repl])
    else aliasLoop query_norm rest variants

/-- Model of `apply_aliases` from src/scripts/bot.py: the normalized query
    first, then the whole-query alias image, then the substring
    substitutions in dictionary order. -/
def apply_aliases (query : List Char) : List (List Char) :=
  aliasLoop (normalize query) ALIASES
    (match List.lookup (normalize query) ALIASES with
     | some repl => [normalize query, normalize repl]
     | none => [normalize query])

/-- Model of `get_synonyms` from src/scripts/bot.py: the first configured
    group whose normalized members contain the normalized name, otherwise
    the singleton of the original name. -/
def get_synonyms (object_name : List Char) : List (List Char) :=
  match SYNONYMS.find? (fun g => decide (normalize object_name ∈ g.map normalize)) with
  | some g => g
  | none => [object_name]

/-- Tier-1 candidate loop of `find_best_match`: normalized equality or
    transliterated-normalized equality; the first candidate in pool order
    wins. -/
def exactHit (objects : List (List Char)) (v vt : List Char) : Option (List Char) :=
  objects.find? (fun o => decide (normalize o = v) || decide (normalize_for_search o = vt))

/-- Tier-2 candidate loop: the variant is contained in the candidate
    (plain or transliterated form). -/
def containHit (objects : List (List Char)) (v vt : List Char) : Option (List Char) :=
  objects.find? (fun o => strIn v (normalize o) || strIn vt (normalize_for_search o))

/-- Tier-3 candidate loop: the candidate is contained in the variant. -/
def revHit (objects : List (List Char)) (v vt : List Char) : Option (List Char) :=
  objects.find? (fun o => strIn (normalize o) v || strIn (normalize_for_search o) vt)

/-- The variant loop of `find_best_match` over tiers 1–3: each variant runs
    the three candidate loops in order and returns on the first hit, with
    the fixed scores 100 / 95 / 90. -/
def tierLoop (objects : List (List Char)) : List (List Char) → Option (List Char × ℚ)
  | [] => none
  | v :: rest =>
    match exactHit objects v (normalize_for_search v) with
    | some o => some (o, 100)
    | none =>
      match containHit objects v (normalize_for_search v) with
      | some o => some (o, 95)
      | none =>
        match revHit objects v (normalize_for_search v) with
        | some o => some (o, 90)
        | none => tierLoop objects rest

/-- Decision whether a new fuzzy score beats the current best result. -/
def extractBetter (best : Option (List Char × ℚ × Nat)) (s : ℚ) : Bool :=
  match best with
  | none => true
  | some (_, bs, _) => decide (bs < s)

/-- Model of `rapidfuzz.process.extractOne(query, choices, scorer,
    score_cutoff)`: the best-scoring choice with score at least the cutoff,
    earliest index winning ties, `none` when no choice reaches the cutoff.
    This is external library behaviour, modelled because `find_best_match`
    calls it with `scorer=fuzz.WRatio`. -/
def extractGo (scorer : List Char → List Char → ℚ) (q : List Char) (cutoff : ℚ) :
    List (List Char) → Nat → Option (List Char × ℚ × Nat) → Option (List Char × ℚ × Nat)
  | [], _, best => best
  | c :: rest, i, best =>
    if cutoff ≤ scorer q c ∧ extractBetter best (scorer q c) then
      extractGo scorer q cutoff rest (i + 1) (some (c, scorer q c, i))
    else extractGo scorer q cutoff rest (i + 1) best

/-- Model of `rapidfuzz.process.extractOne`, starting with no best result. -/
def extractOne (scorer : List Char → List Char → ℚ) (q : List Char)
    (choices : List (List Char)) (cutoff : ℚ) : Option (List Char × ℚ × Nat) :=
  extractGo scorer q cutoff choices 0 none

/-- Tier-4 loop of `find_best_match`: one `extractOne` call (cutoff 75) per
    alias variant, keeping the strictly best-scoring result; `best_score`
    starts at 0. -/
def fuzzyGo (scorer : List Char → List Char → ℚ) (objT : List (List Char)) :
    List (List Char) → Option (List Char × ℚ × Nat) → ℚ → Option (List Char × ℚ × Nat)
  | [], best, _ => best
  | v :: rest, best, bestScore =>
    match extractOne scorer (normalize_for_search v) objT 75 with
    | some (c, s, i) =>
      if bestScore < s then fuzzyGo scorer objT rest (some (c, s, i)) s
      else fuzzyGo scorer objT rest best bestScore
    | none => fuzzyGo scorer objT rest best bestScore

/-- Model of `find_best_match` from src/scripts/bot.py. Returns the triple
    `(matched object, score, exact flag)`; the matched object is `objects[idx]`
    in the fuzzy branch. -/
def find_best_match (scorer : List Char → List Char → ℚ) (query : List Char)
    (objects : List (List Char)) : Option (List Char) × ℚ × Bool :=
  if objects.isEmpty then (none, 0, false)
  else
    match tierLoop objects (apply_aliases query) with
    | some (o, s) => (some o, s, true)
    | none =>
      match fuzzyGo scorer (objects.map normalize_for_search) (apply_aliases query) none 0 with
      | some (_, s, idx) => (some (objects.getD idx []), s, false)
      | none => (none, 0, false)

/-- Per-variant tier cascade as §4.5 of the spec words it: the exact tier,
    then forward containment, then reverse containment, the first candidate
    in pool iteration order winning within a tier. -/
def tier123Spec (objects : List (List Char)) (v : List Char) : Option (List Char × ℚ) :=
  match exactHit objects v (normalize_for_search v) with
  | some o => some (o, 100)
  | none =>
    match containHit objects v (normalize_for_search v) with
    | some o => some (o, 95)
    | none => (revHit objects v (normalize_for_search v)).map (fun o => (o, 90))

/-- Resolution cascade in the shape the spec describes: alias variants in
    the Expander's output order, each variant fully exhausting tiers 1–3
    before the next variant is tried; the fuzzy tier runs once over all
    variants only when every variant failed tiers 1–3. -/
def resolveSpec (scorer : List Char → List Char → ℚ) (query : List Char)
    (objects : List (List Char)) : Option (List Char) × ℚ × Bool :=
  if objects.isEmpty then (none, 0, false)
  else
    match (apply_aliases query).findSome? (tier123Spec objects) with
    | some (o, s) => (some o, s, true)
    | none =>
      match fuzzyGo scorer (objects.map normalize_for_search) (apply_aliases query) none 0 with
      | some (_, s, idx) => (some (objects.getD idx []), s, false)
      | none => (none, 0, false)

/-- The source's variant loop over tiers 1–3 computes the first variant
    whose per-variant cascade hits, as the spec words it. -/
theorem tierLoop_eq_findSome? (objects : List (List Char)) :
    ∀ vs : List (List Char), tierLoop objects vs = vs.findSome? (tier123Spec objects) := by
  intro vs
  induction vs with
  | nil => rfl
  | cons v rest ih =>
    rw [tierLoop, List.findSome?_cons]
    cases he : exactHit objects v (normalize_for_search v) with
    | some o => simp [tier123Spec, he]
    | none =>
      cases hc : containHit objects v (normalize_for_search v) with
      | some o => simp [tier123Spec, he, hc]
      | none =>
        cases hr : revHit objects v (normalize_for_search v) with
        | some o => simp [tier123Spec, he, hc, hr]
        | none => simp [tier123Spec, he, hc, hr, ih]

deriving instance DecidableEq for Except

/-- A transactional row of the showings spreadsheet: broker name (missing
    cell is `none`), date cell (embedded as the day ordinal that the
    `DD.MM.YYYY` string denotes), object name, optional status. -/
structure Row where
  broker : Option (List Char)
  date : Int
  obj : Option (List Char)
  status : Option (List Char)
  deriving DecidableEq

/-- An in-memory dataframe: column names plus rows. -/
structure Table where
  cols : List (List Char)
  rows : List Row
  deriving DecidableEq

/-- The required dataset columns `["Брокер", "Дата", "Объект"]`, shared by
    `load_data` (bot.py) and `find_brokers` (matcher.py). -/
def requiredCols : List (List Char) :=
  ["Брокер".toList, "Дата".toList, "Объект".toList]

/-- The first required column missing from the dataset, in required order. -/
def firstMissing (cols : List (List Char)) : Option (List Char) :=
  requiredCols.find? (fun c => decide (¬ c ∈ cols))

/-- The error text `"Отсутствует колонка: <col>"` of load_data and
    find_brokers. -/
def colErr (c : List Char) : List Char := "Отсутствует колонка: ".toList ++ c

/-- Model of `load_data` from src/scripts/bot.py over an already-loaded
    table (reading the xlsx file is collaborator I/O, so the file-missing
    branch is outside this model): the table, or the error string naming
    the first missing required column. -/
def load_data (tbl : Table) : Except (List Char) Table :=
  match firstMissing tbl.cols with
  | some c => Except.error (colErr c)
  | none => Except.ok tbl

/-- Model of `parse_date`: `datetime.strptime(d, "%d.%m.%Y")` yields
    midnight of the denoted day, i.e. the day ordinal times 86400 seconds. -/
def parse_date (d : Int) : Int := d * 86400

/-- The row-retention test of the date filter `df[df["_date"] >= cutoff]`
    with `cutoff = datetime.now() - timedelta(days=days)`. -/
def dateKeep (now days d : Int) : Bool := decide (now - days * 86400 ≤ parse_date d)

/-- The date filter applied to the rows, as in both `search_brokers` and
    `find_brokers`. -/
def dateFiltered (now days : Int) (rows : List Row) : List Row :=
  rows.filter (fun r => dateKeep now days r.date)

/-- The 60-day window of the bot (`DAYS = 60` in src/scripts/bot.py). -/
def DAYS : Int := 60

/-- Model of pandas `unique()`: keep the first occurrence of each value. -/
def uniqueAux : List (List Char) → List (List Char) → List (List Char)
  | _, [] => []
  | seen, a :: t => if a ∈ seen then uniqueAux seen t else a :: uniqueAux (a :: seen) t

/-- Values of a list with later duplicates removed (pandas `unique()`). -/
def uniqueFirst (l : List (List Char)) : List (List Char) := uniqueAux [] l

/-- Lexicographic comparison of strings by code point, as Python `sorted`
    compares strings. -/
def strLe : List Char → List Char → Bool
  | [], _ => true
  | _ :: _, [] => false
  | a :: as, b :: bs => if a = b then strLe as bs else decide (a.toNat < b.toNat)

/-- Insertion into a sorted list of strings. -/
def insertSorted (a : List Char) : List (List Char) → List (List Char)
  | [] => [a]
  | b :: t => if strLe a b then a :: b :: t else b :: insertSorted a t

/-- Model of Python `sorted` on a list of strings. -/
def sortStr (l : List (List Char)) : List (List Char) := l.foldr insertSorted []

/-- The broker extraction shared by `search_brokers` and `find_brokers`:
    `dropna()`, `str.strip()`, drop blanks, `sorted(unique())`. -/
def brokersOf (rows : List Row) : List (List Char) :=
  sortStr (uniqueFirst (((rows.filterMap (fun r => r.broker)).map pyStrip).filter
    (fun b => !b.isEmpty)))

/-- The aggregation filter of `search_brokers`:
    `df[df["Объект"].isin(synonyms)]` — raw, unnormalized equality of the
    object cell against the synonym-group strings. -/
def synFilter (synonyms : List (List Char)) (rows : List Row) : List Row :=
  rows.filter (fun r =>
    match r.obj with
    | some v => decide (v ∈ synonyms)
    | none => false)

/-- Result dictionary of `search_brokers`, one constructor per shape. -/
inductive SearchResult where
  | err (msg : List Char)
  | notFound (query : List Char) (days : Int)
  | found (query object : List Char) (objects : List (List Char)) (days : Int)
      (brokers : List (List Char)) (score : ℚ) (exactFlag : Bool)
  deriving DecidableEq

/-- Model of `search_brokers` from src/scripts/bot.py. `now` is the value
    of `datetime.now()` in seconds and `scorer` the rapidfuzz scorer; both
    are external inputs of the source. The `if not best_match` check of the
    source treats `None` and the empty string as misses. -/
def search_brokers (scorer : List Char → List Char → ℚ) (now : Int) (tbl : Table)
    (query : List Char) : SearchResult :=
  match load_data tbl with
  | Except.error e => SearchResult.err e
  | Except.ok df =>
    if (dateFiltered now DAYS df.rows).isEmpty then
      SearchResult.err "Нет данных за указанный период".toList
    else
      match find_best_match scorer query
          (uniqueFirst ((dateFiltered now DAYS df.rows).filterMap (fun r => r.obj))) with
      | (some m, s, ex) =>
        if m.isEmpty then SearchResult.notFound query DAYS
        else
          SearchResult.found query m
            (uniqueFirst ((synFilter (get_synonyms m)
              (dateFiltered now DAYS df.rows)).filterMap (fun r => r.obj)))
            DAYS
            (brokersOf (synFilter (get_synonyms m) (dateFiltered now DAYS df.rows)))
            s ex
      | (none, _, _) => SearchResult.notFound query DAYS

/-- Result of `find_brokers` from src/scripts/matcher.py. -/
structure FBResult where
  object : List Char
  days : Int
  matchMode : List Char
  brokers : List (List Char)
  deriving DecidableEq

/-- The object filter of `find_brokers`: exact normalized equality, or
    substring containment of the normalized query in the normalized object
    (`str.contains`; the pandas call interprets the pattern as a regular
    expression, but the normalized queries used here are plain text, so it
    is embedded as literal containment; `na=False` is vacuous because
    `_object_norm` maps NaN to the empty string). -/
def objectFilter (query_norm match_mode : List Char) (rows : List Row) : List Row :=
  if match_mode = "exact".toList then
    rows.filter (fun r => decide (normalizeCell r.obj = query_norm))
  else rows.filter (fun r => strIn query_norm (normalizeCell r.obj))

/-- The status filter of `find_brokers`: applied only when
    `exclude_status` is truthy (neither `None` nor empty) and the dataset
    has a `Статус` column; keeps rows whose status differs (NaN differs). -/
def statusFilter (excl : Option (List Char)) (cols : List (List Char))
    (rows : List Row) : List Row :=
  match excl with
  | none => rows
  | some es =>
    if ¬ es.isEmpty ∧ "Статус".toList ∈ cols then
      rows.filter (fun r => decide (¬ r.status = some es))
    else rows

/-- Model of `find_brokers` from src/scripts/matcher.py; the xlsx read is
    collaborator I/O, so the loaded table is a parameter and `now` is the
    value of `datetime.now()` in seconds. The `ValueError` raised for a
    missing required column is the `Except.error` branch. -/
def find_brokers (tbl : Table) (object_query : List Char) (days : Int)
    (match_mode : List Char) (exclude_status : Option (List Char)) (now : Int) :
    Except (List Char) FBResult :=
  match firstMissing tbl.cols with
  | some c => Except.error (colErr c)
  | none =>
    Except.ok ⟨object_query, days, match_mode,
      brokersOf (statusFilter exclude_status tbl.cols
        (objectFilter (normalize object_query) match_mode
          (dateFiltered now days tbl.rows)))⟩

/-- One value of the district reference `districts.json`; absent keys are
    `none` (the source reads them with `info.get`). -/
structure DistrictInfo where
  district : Option (List Char)
  city : Option (List Char)
  country : Option (List Char)
  deriving DecidableEq

/-- One element of the result list of `get_objects_by_district`. -/
structure DistrictRec where
  object : List Char
  district : Option (List Char)
  city : Option (List Char)
  country : Option (List Char)
  deriving DecidableEq

/-- Model of `get_objects_by_district` from src/scripts/bot.py, over an
    already-loaded reference mapping (Python dict iteration order is
    insertion order, embedded as a list of pairs). The district branch
    tests containment in both directions; the `elif` city branch tests only
    query-contained-in-city or exact city equality. -/
def get_objects_by_district (districts_data : List (List Char × DistrictInfo))
    (district_query : List Char) : List DistrictRec :=
  districts_data.filterMap (fun p =>
    if strIn (normalize district_query) (normalize (p.2.district.getD []))
        || strIn (normalize (p.2.district.getD [])) (normalize district_query) then
      some ⟨p.1, p.2.district, p.2.city, p.2.country⟩
    else if strIn (normalize district_query) (normalize (p.2.city.getD []))
        || decide (normalize (p.2.city.getD []) = normalize district_query) then
      some ⟨p.1, p.2.district, p.2.city, p.2.country⟩
    else none)

/-- The district lookup as the code actually matches (amended wording of
    the spec): bidirectional containment on the district, or the query
    contained in the city, or exact city equality — but not city-contained-
    in-query alone. -/
def lookupByAreaAmended (districts_data : List (List Char × DistrictInfo))
    (district_query : List Char) : List DistrictRec :=
  districts_data.filterMap (fun p =>
    if strIn (normalize district_query) (normalize (p.2.district.getD []))
        || strIn (normalize (p.2.district.getD [])) (normalize district_query)
        || strIn (normalize district_query) (normalize (p.2.city.getD []))
        || decide (normalize (p.2.city.getD []) = normalize district_query) then
      some ⟨p.1, p.2.district, p.2.city, p.2.country⟩
    else none)

/-- Shape of the bot reply that `handle_message` sends after calling
    `search_brokers` (src/scripts/bot.py, message texts abbreviated to
    their data content). -/
inductive Reply where
  | errorText (msg : List Char)
  | notFoundText (query : List Char)
  | fuzzyPrompt (object : List Char)
  | brokersReply (header : List (List Char)) (brokers : List (List Char))
  deriving DecidableEq

/-- The reply `handle_message` sends for a `search_brokers` result: errors
    and not-found produce their messages; a non-exact (fuzzy) result
    produces only the suggestion re-prompt carrying no broker list; an
    exact result produces the broker list under the found-objects header. -/
def handleSearchReply : SearchResult → Reply
  | SearchResult.err e => Reply.errorText e
  | SearchResult.notFound q _ => Reply.notFoundText q
  | SearchResult.found _ obj objs _ brokers _ ex =>
    if ex then Reply.brokersReply (if 1 < objs.length then objs else [obj]) brokers
    else Reply.fuzzyPrompt obj

/-- Claim C1: for every query and candidate list, `find_best_match`
    evaluates alias variants in the Alias Expander's output order, each
    variant fully exhausting tier 1 (exact equality on normalized or
    transliterated-normalized forms), then tier 2 (variant contained in
    candidate), then tier 3 (candidate contained in variant) — first
    candidate in pool iteration order winning within a tier — before the
    next variant is tried; fuzzy tier 4 runs once over all variants only if
    tiers 1–3 found nothing for every variant. `resolveSpec` is that
    cascade written in the spec's shape, and the source matcher equals it. -/
theorem find_best_match_cascade (scorer : List Char → List Char → ℚ)
    (query : List Char) (objects : List (List Char)) :
    find_best_match scorer query objects = resolveSpec scorer query objects := by
  unfold find_best_match resolveSpec
  rw [tierLoop_eq_findSome?]

/-- Inversion for the tier 1–3 loop: a hit is a pool member carrying one of
    the three fixed scores. -/
theorem tierLoop_some (objects : List (List Char)) :
    ∀ (vs : List (List Char)) (o : List Char) (s : ℚ),
      tierLoop objects vs = some (o, s) →
      o ∈ objects ∧ (s = 100 ∨ s = 95 ∨ s = 90) := by
  intro vs
  induction vs with
  | nil => intro o s h; simp [tierLoop] at h
  | cons v rest ih =>
    intro o s h
    rw [tierLoop] at h
    cases he : exactHit objects v (normalize_for_search v) with
    | some o2 =>
      simp [he] at h
      exact ⟨h.1 ▸ List.mem_of_find?_eq_some he, Or.inl h.2.symm⟩
    | none =>
      cases hc : containHit objects v (normalize_for_search v) with
      | some o2 =>
        simp [he, hc] at h
        exact ⟨h.1 ▸ List.mem_of_find?_eq_some hc, Or.inr (Or.inl h.2.symm)⟩
      | none =>
        cases hr : revHit objects v (normalize_for_search v) with
        | some o2 =>
          simp [he, hc, hr] at h
          exact ⟨h.1 ▸ List.mem_of_find?_eq_some hr, Or.inr (Or.inr h.2.symm)⟩
        | none =>
          simp [he, hc, hr] at h
          exact ih o s h

/-- When tiers 1–3 fail for every variant, in particular the tier-1 search
    failed for each variant. -/
theorem tierLoop_none (objects : List (List Char)) :
    ∀ vs, tierLoop objects vs = none →
      ∀ v ∈ vs, exactHit objects v (normalize_for_search v) = none := by
  intro vs
  induction vs with
  | nil => intro _ v hv; simp at hv
  | cons v0 rest ih =>
    intro h v hv
    rw [tierLoop] at h
    cases he : exactHit objects v0 (normalize_for_search v0) with
    | some o => simp [he] at h
    | none =>
      cases hc : containHit objects v0 (normalize_for_search v0) with
      | some o => simp [he, hc] at h
      | none =>
        cases hr : revHit objects v0 (normalize_for_search v0) with
        | some o => simp [he, hc, hr] at h
        | none =>
          simp [he, hc, hr] at h
          rcases List.mem_cons.1 hv with rfl | hv2
          · exact he
          · exact ih h v hv2

/-- A failed tier-1 search means no candidate agrees with the variant on
    the transliterated-normalized form. -/
theorem exactHit_none {objects : List (List Char)} {v vt : List Char}
    (h : exactHit objects v vt = none) :
    ∀ o ∈ objects, ¬ normalize_for_search o = vt := by
  intro o ho
  have h2 := List.find?_eq_none.1 h o ho
  simp at h2
  exact h2.2

/-- Inversion for the `extractOne` recursion: a returned triple is either
    the initial best or an indexed choice scoring at least the cutoff. -/
theorem extractGo_some (scorer : List Char → List Char → ℚ) (q : List Char)
    (cutoff : ℚ) :
    ∀ (l : List (List Char)) (i : Nat) (best : Option (List Char × ℚ × Nat))
      (c : List Char) (s : ℚ) (j : Nat),
      extractGo scorer q cutoff l i best = some (c, s, j) →
      best = some (c, s, j) ∨
        ∃ k, l.get? k = some c ∧ s = scorer q c ∧ cutoff ≤ s ∧ j = i + k := by
  intro l
  induction l with
  | nil => intro i best c s j h; exact Or.inl h
  | cons c0 rest ih =>
    intro i best c s j h
    rw [extractGo] at h
    by_cases hcond : cutoff ≤ scorer q c0 ∧ extractBetter best (scorer q c0) = true
    · rw [if_pos hcond] at h
      rcases ih (i + 1) _ c s j h with h2 | h2
      · right
        have h3 : c0 = c ∧ scorer q c0 = s ∧ i = j := by
          simpa using h2
        obtain ⟨rfl, hs, rfl⟩ := h3
        exact ⟨0, rfl, hs.symm, hs ▸ hcond.1, by omega⟩
      · right
        obtain ⟨k, hk1, hk2, hk3, hk4⟩ := h2
        exact ⟨k + 1, by simpa using hk1, hk2, hk3, by omega⟩
    · rw [if_neg hcond] at h
      rcases ih (i + 1) best c s j h with h2 | h2
      · exact Or.inl h2
      · right
        obtain ⟨k, hk1, hk2, hk3, hk4⟩ := h2
        exact ⟨k + 1, by simpa using hk1, hk2, hk3, by omega⟩

/-- Inversion for `extractOne`: the returned choice sits at the returned
    index, carries its score, and reached the cutoff. -/
theorem extractOne_some {scorer : List Char → List Char → ℚ} {q : List Char}
    {choices : List (List Char)} {cutoff : ℚ} {c : List Char} {s : ℚ} {j : Nat}
    (h : extractOne scorer q choices cutoff = some (c, s, j)) :
    choices.get? j = some c ∧ s = scorer q c ∧ cutoff ≤ s := by
  rcases extractGo_some scorer q cutoff choices 0 none c s j h with h2 | h2
  · cases h2
  · obtain ⟨k, hk1, hk2, hk3, hk4⟩ := h2
    have : j = k := by omega
    subst this
    exact ⟨hk1, hk2, hk3⟩

/-- Inversion for the tier-4 loop: a returned result is the initial best or
    the `extractOne` output of one of the variants. -/
theorem fuzzyGo_some (scorer : List Char → List Char → ℚ) (objT : List (List Char)) :
    ∀ (vs : List (List Char)) (best : Option (List Char × ℚ × Nat)) (bs : ℚ)
      (r : List Char × ℚ × Nat),
      fuzzyGo scorer objT vs best bs = some r →
      best = some r ∨
        ∃ v ∈ vs, extractOne scorer (normalize_for_search v) objT 75 = some r := by
  intro vs
  induction vs with
  | nil => intro best bs r h; exact Or.inl h
  | cons v rest ih =>
    intro best bs r h
    rw [fuzzyGo] at h
    cases hx : extractOne scorer (normalize_for_search v) objT 75 with
    | some p =>
      rcases p with ⟨c, s, i⟩
      simp only [hx] at h
      by_cases hlt : bs < s
      · rw [if_pos hlt] at h
        rcases ih _ _ _ h with h2 | h2
        · right
          exact ⟨v, List.mem_cons_self v rest, h2 ▸ hx⟩
        · right
          obtain ⟨v2, hv2, he2⟩ := h2
          exact ⟨v2, List.mem_cons_of_mem _ hv2, he2⟩
      · rw [if_neg hlt] at h
        rcases ih _ _ _ h with h2 | h2
        · exact Or.inl h2
        · right
          obtain ⟨v2, hv2, he2⟩ := h2
          exact ⟨v2, List.mem_cons_of_mem _ hv2, he2⟩
    | none =>
      simp only [hx] at h
      rcases ih _ _ _ h with h2 | h2
      · exact Or.inl h2
      · right
        obtain ⟨v2, hv2, he2⟩ := h2
        exact ⟨v2, List.mem_cons_of_mem _ hv2, he2⟩

/-- Claim C2: the exact flag is true exactly for the first three cascade
    tiers, whose scores are the fixed constants 100, 95 and 90; a fuzzy
    match carries exact=false and a score strictly below 100. The two
    scorer hypotheses are the WRatio facts used: scores do not exceed 100,
    and 100 is attained only on equal strings. -/
theorem find_best_match_exact_flag (scorer : List Char → List Char → ℚ)
    (hle : ∀ a b, scorer a b ≤ 100) (heq100 : ∀ a b, scorer a b = 100 → a = b)
    (query : List Char) (objects : List (List Char))
    (m : Option (List Char)) (s : ℚ) (e : Bool)
    (hr : find_best_match scorer query objects = (m, s, e)) :
    (e = true → s = 100 ∨ s = 95 ∨ s = 90) ∧ (e = false → s < 100) := by
  unfold find_best_match at hr
  by_cases hemp : objects.isEmpty = true
  · rw [if_pos hemp] at hr
    have h3 : none = m ∧ (0 : ℚ) = s ∧ false = e := by simpa using hr
    obtain ⟨rfl, rfl, rfl⟩ := h3
    exact ⟨(by intro h; cases h), (by intro _; norm_num)⟩
  · rw [if_neg hemp] at hr
    cases ht : tierLoop objects (apply_aliases query) with
    | some p =>
      rcases p with ⟨o, sc⟩
      rw [ht] at hr
      have h3 : some o = m ∧ sc = s ∧ true = e := by simpa using hr
      obtain ⟨rfl, rfl, rfl⟩ := h3
      refine ⟨fun _ => (tierLoop_some objects _ o _ ht).2, (by intro h; cases h)⟩
    | none =>
      rw [ht] at hr
      cases hf : fuzzyGo scorer (objects.map normalize_for_search)
          (apply_aliases query) none 0 with
      | some p =>
        rcases p with ⟨c, sc, idx⟩
        rw [hf] at hr
        have h3 : some (objects.getD idx []) = m ∧ sc = s ∧ false = e := by simpa using hr
        obtain ⟨rfl, rfl, rfl⟩ := h3
        refine ⟨(by intro h; cases h), fun _ => ?_⟩
        rcases fuzzyGo_some scorer _ _ _ _ _ hf with h2 | h2
        · cases h2
        · obtain ⟨v, hv, hx⟩ := h2
          obtain ⟨hget, hs, _⟩ := extractOne_some hx
          have hle' : sc ≤ 100 := hs ▸ hle _ _
          rcases lt_or_eq_of_le hle' with h | h
          · exact h
          · exfalso
            have h100 : scorer (normalize_for_search v) c = 100 := by rw [← hs]; exact h
            have hceq : normalize_for_search v = c := heq100 _ _ h100
            rw [List.get?_map] at hget
            obtain ⟨ob, hob, hobc⟩ := Option.map_eq_some'.1 hget
            have hobmem : ob ∈ objects := List.get?_mem hob
            exact exactHit_none (tierLoop_none objects _ ht v hv) ob hobmem
              (by rw [hobc, ← hceq])
      | none =>
        rw [hf] at hr
        have h3 : none = m ∧ (0 : ℚ) = s ∧ false = e := by simpa using hr
        obtain ⟨rfl, rfl, rfl⟩ := h3
        exact ⟨(by intro h; cases h), (by intro _; norm_num)⟩

/-- Equality scorer used to instantiate scorer-parametrized theorems; it
    satisfies the WRatio facts assumed of the external scorer. -/
def eqScorer : List Char → List Char → ℚ := fun a b => if a = b then 100 else 0

/-- The equality scorer never exceeds 100. -/
theorem eqScorer_le (a b : List Char) : eqScorer a b ≤ 100 := by
  unfold eqScorer
  split <;> norm_num

/-- The equality scorer attains 100 only on equal strings. -/
theorem eqScorer_100 (a b : List Char) (h : eqScorer a b = 100) : a = b := by
  unfold eqScorer at h
  split at h
  · assumption
  · norm_num at h

/-- Witness for C2 at a concrete input: the query "prime park" against the
    pool ["Prime Park", "Prime"] resolves in the exact tier with score 100
    and exact=true (also the spec's exact-tier precedence example). -/
theorem find_best_match_exact_flag_witness :
    ((true : Bool) = true → (100 : ℚ) = 100 ∨ (100 : ℚ) = 95 ∨ (100 : ℚ) = 90) ∧
    ((true : Bool) = false → (100 : ℚ) < 100) :=
  find_best_match_exact_flag eqScorer eqScorer_le eqScorer_100
    ("prime park".toList) ["Prime Park".toList, "Prime".toList]
    (some ("Prime Park".toList)) 100 true (by decide)

/-- Claim C10: `find_best_match` returns either `(none, 0, false)` or a
    triple whose matched value is an element of the candidate list,
    returned verbatim, with a strictly positive score. -/
theorem find_best_match_verbatim (scorer : List Char → List Char → ℚ)
    (query : List Char) (objects : List (List Char)) :
    find_best_match scorer query objects = (none, 0, false) ∨
      ∃ m s e, find_best_match scorer query objects = (some m, s, e) ∧
        m ∈ objects ∧ 0 < s := by
  by_cases hemp : objects.isEmpty = true
  · left
    unfold find_best_match
    rw [if_pos hemp]
  · cases ht : tierLoop objects (apply_aliases query) with
    | some p =>
      rcases p with ⟨o, sc⟩
      right
      obtain ⟨hmem, hs⟩ := tierLoop_some objects _ o sc ht
      refine ⟨o, sc, true, ?_, hmem, ?_⟩
      · unfold find_best_match
        rw [if_neg hemp, ht]
      · rcases hs with rfl | rfl | rfl <;> norm_num
    | none =>
      cases hf : fuzzyGo scorer (objects.map normalize_for_search)
          (apply_aliases query) none 0 with
      | none =>
        left
        unfold find_best_match
        rw [if_neg hemp, ht, hf]
      | some p =>
        rcases p with ⟨c, sc, idx⟩
        right
        rcases fuzzyGo_some scorer _ _ _ _ _ hf with h2 | h2
        · cases h2
        · obtain ⟨v, hv, hx⟩ := h2
          obtain ⟨hget, hs, hcut⟩ := extractOne_some hx
          rw [List.get?_map] at hget
          obtain ⟨ob, hob, hobc⟩ := Option.map_eq_some'.1 hget
          have hgd : objects.getD idx [] = ob := by
            simp [List.getD_eq_getElem?_getD, ← List.get?_eq_getElem?, hob]
          refine ⟨ob, sc, false, ?_, List.get?_mem hob, ?_⟩
          · unfold find_best_match
            rw [if_neg hemp, ht, hf]
            show (some (objects.getD idx []), sc, false) = (some ob, sc, false)
            rw [hgd]
          · have : (75 : ℚ) ≤ sc := hcut
            linarith

/-- The alias loop only appends to the variant list. -/
theorem aliasLoop_append (qn : List Char) :
    ∀ (al : List (List Char × List Char)) (vs : List (List Char)),
      ∃ t, aliasLoop qn al vs = vs ++ t := by
  intro al
  induction al with
  | nil => intro vs; exact ⟨[], by simp [aliasLoop]⟩
  | cons p rest ih =>
    intro vs
    rcases p with ⟨ali, repl⟩
    rw [aliasLoop]
    by_cases h1 : strIn ali qn = true ∧ ¬ ali = qn
    · rw [if_pos h1]
      by_cases h2 : strReplace qn ali repl ∈ vs
      · rw [if_pos h2]; exact ih vs
      · rw [if_neg h2]
        obtain ⟨t, ht⟩ := ih (vs ++ [strReplace qn ali repl])
        exact ⟨strReplace qn ali repl :: t, by rw [ht, List.append_assoc]; rfl⟩
    · rw [if_neg h1]; exact ih vs

/-- Appending a fresh element keeps a list duplicate-free. -/
theorem nodup_append_singleton {a : List Char} {l : List (List Char)}
    (hl : l.Nodup) (ha : ¬ a ∈ l) : (l ++ [a]).Nodup := by
  rw [List.nodup_append]
  exact ⟨hl, List.nodup_singleton a, by simpa [List.disjoint_singleton] using ha⟩

/-- The alias loop preserves duplicate-freedom of the variant list. -/
theorem aliasLoop_nodup (qn : List Char) :
    ∀ (al : List (List Char × List Char)) (vs : List (List Char)),
      vs.Nodup → (aliasLoop qn al vs).Nodup := by
  intro al
  induction al with
  | nil => intro vs h; exact h
  | cons p rest ih =>
    intro vs h
    rcases p with ⟨ali, repl⟩
    rw [aliasLoop]
    by_cases h1 : strIn ali qn = true ∧ ¬ ali = qn
    · rw [if_pos h1]
      by_cases h2 : strReplace qn ali repl ∈ vs
      · rw [if_pos h2]; exact ih vs h
      · rw [if_neg h2]; exact ih _ (nodup_append_singleton h h2)
    · rw [if_neg h1]; exact ih vs h

/-- Claim C7 amended: the first variant is always `normalize query`, and
    the output is duplicate-free whenever the whole-query alias step does
    not map the normalized query to itself (the substring-substitution
    step always deduplicates; only the self-mapped alias entry can insert
    a duplicate of the first element). -/
theorem apply_aliases_head_nodup (query : List Char) :
    (apply_aliases query).head? = some (normalize query) ∧
    ((∀ repl, List.lookup (normalize query) ALIASES = some repl →
        ¬ normalize repl = normalize query) →
      (apply_aliases query).Nodup) := by
  unfold apply_aliases
  cases hl : List.lookup (normalize query) ALIASES with
  | none =>
    simp only [hl]
    constructor
    · obtain ⟨t, ht⟩ := aliasLoop_append (normalize query) ALIASES [normalize query]
      rw [ht]; rfl
    · intro _
      exact aliasLoop_nodup _ _ _ (List.nodup_singleton _)
  | some repl =>
    simp only [hl]
    constructor
    · obtain ⟨t, ht⟩ := aliasLoop_append (normalize query) ALIASES
        [normalize query, normalize repl]
      rw [ht]; rfl
    · intro hne
      apply aliasLoop_nodup
      have hd : ¬ normalize query = normalize repl := fun h => hne repl rfl h.symm
      simp [List.nodup_cons, hd]

/-- Counterexample to claim C7 as stated: the alias table maps the key
    "артхаус" to itself, so `apply_aliases "артхаус"` contains the same
    string twice — the output is not deduplicated. -/
theorem apply_aliases_duplicate :
    apply_aliases ("артхаус".toList) = ["артхаус".toList, "артхаус".toList] ∧
    ¬ (apply_aliases ("артхаус".toList)).Nodup := by
  exact ⟨by decide, by decide⟩

/-- Witness for the amended C7 at the query "прайм", whose alias image
    "прайм парк" differs from it: the head is the normalized query and the
    output is duplicate-free. -/
theorem apply_aliases_head_nodup_witness :
    (apply_aliases ("прайм".toList)).head? = some (normalize ("прайм".toList)) ∧
    (apply_aliases ("прайм".toList)).Nodup := by
  have h := apply_aliases_head_nodup ("прайм".toList)
  refine ⟨h.1, h.2 ?_⟩
  intro repl hr
  have h2 : List.lookup (normalize ("прайм".toList)) ALIASES =
      some ("прайм парк".toList) := by decide
  rw [h2] at hr
  injection hr with h3
  rw [← h3]
  decide

/-- Claim C8: when a required column (broker, date, object name) is
    missing, `find_brokers` fails for the whole call with the error string
    naming the (first) missing column and produces no partial result, and
    `load_data` surfaces the same user-visible error; when all required
    columns are present, no such error is raised. `firstMissing` is the
    source's `for col in required: if col not in df.columns` check. -/
theorem find_brokers_missing_column (tbl : Table) (q : List Char) (days : Int)
    (mode : List Char) (excl : Option (List Char)) (now : Int) :
    (∀ c, firstMissing tbl.cols = some c →
      find_brokers tbl q days mode excl now = Except.error (colErr c) ∧
      load_data tbl = Except.error (colErr c) ∧
      c ∈ requiredCols ∧ ¬ c ∈ tbl.cols) ∧
    (firstMissing tbl.cols = none →
      load_data tbl = Except.ok tbl ∧
      ∃ r, find_brokers tbl q days mode excl now = Except.ok r) ∧
    (firstMissing tbl.cols = none ↔ ∀ c ∈ requiredCols, c ∈ tbl.cols) := by
  refine ⟨?_, ?_, ?_⟩
  · intro c hc
    refine ⟨?_, ?_, ?_, ?_⟩
    · unfold find_brokers
      rw [hc]
    · unfold load_data
      rw [hc]
    · exact List.mem_of_find?_eq_some hc
    · have h2 := List.find?_some hc
      simpa using h2
  · intro hn
    constructor
    · unfold load_data
      rw [hn]
    · refine ⟨⟨q, days, mode, brokersOf (statusFilter excl tbl.cols
        (objectFilter (normalize q) mode (dateFiltered now days tbl.rows)))⟩, ?_⟩
      unfold find_brokers
      rw [hn]
  · unfold firstMissing
    rw [List.find?_eq_none]
    constructor
    · intro h c hc
      have h2 := h c hc
      simpa using h2
    · intro h c hc
      simpa using h c hc

/-- Dataset with the date column missing, for the C8 witness. -/
def tblNoDate : Table := ⟨["Брокер".toList, "Объект".toList], []⟩

/-- Witness for C8: on a dataset missing the "Дата" column, both
    `find_brokers` and `load_data` fail with the error naming it. -/
theorem find_brokers_missing_column_witness :
    find_brokers tblNoDate ("x".toList) 14 ("exact".toList) none 0 =
      Except.error (colErr ("Дата".toList)) ∧
    load_data tblNoDate = Except.error (colErr ("Дата".toList)) := by
  have h := (find_brokers_missing_column tblNoDate ("x".toList) 14 ("exact".toList)
    none 0).1 ("Дата".toList) (by decide)
  exact ⟨h.1, h.2.1⟩

/-- Reference data for the C5 counterexample: one object in district "d"
    of city "msk". -/
def ddMsk : List (List Char × DistrictInfo) :=
  [("Объект1".toList, ⟨some ("d".toList), some ("msk".toList), none⟩)]

/-- Counterexample to claim C5 as stated: the record's normalized city
    "msk" is contained in the normalized query "x msk y" (and the district
    does not match), yet the lookup returns nothing — containment against
    the city is tested in one direction only, not bidirectionally. -/
theorem district_city_not_bidirectional :
    get_objects_by_district ddMsk ("x msk y".toList) = [] ∧
    strIn (normalize ("msk".toList)) (normalize ("x msk y".toList)) = true := by
  exact ⟨by decide, by decide⟩

/-- Claim C5 amended: a record matches iff the normalized query and the
    record's normalized district contain one another in either direction,
    OR the normalized query is contained in the record's normalized city,
    OR the normalized city equals the query — city-contained-in-query alone
    does not match. `lookupByAreaAmended` is that predicate, and the source
    lookup equals it. -/
theorem get_objects_by_district_amended
    (districts_data : List (List Char × DistrictInfo)) (district_query : List Char) :
    get_objects_by_district districts_data district_query =
      lookupByAreaAmended districts_data district_query := by
  unfold get_objects_by_district lookupByAreaAmended
  apply congrArg (fun f => List.filterMap f districts_data)
  funext p
  cases h1 : strIn (normalize district_query) (normalize (p.2.district.getD [])) <;>
    cases h2 : strIn (normalize (p.2.district.getD [])) (normalize district_query) <;>
    cases h3 : strIn (normalize district_query) (normalize (p.2.city.getD [])) <;>
    cases h4 : decide (normalize (p.2.city.getD []) = normalize district_query) <;>
    simp [h1, h2, h3, h4]

/-- A one-row dataset with broker "B" and object "x", dated day `d`. -/
def tblB (d : Int) : Table :=
  ⟨requiredCols, [⟨some ("B".toList), d, some ("x".toList), none⟩]⟩

/-- Counterexample to claim C6 as stated: take now = 86401 s (one second
    past midnight of day 1) and days = 1. The row dated day 0 — exactly one
    day before now's calendar day — is excluded by the filter, because the
    cutoff `now - days·86400` inherits now's time of day while row dates
    parse to midnight; the claim asserts it is included for every now. -/
theorem date_boundary_excluded_off_midnight :
    find_brokers (tblB 0) ("x".toList) 1 ("exact".toList) none 86401 =
      Except.ok ⟨"x".toList, 1, "exact".toList, []⟩ := by
  decide

/-- Claim C6 amended: the comparison is `>=` against the cutoff
    `now - days·86400` (not `>`), so the row whose parsed date equals the
    cutoff instant is included; since row dates parse to midnight, the row
    dated exactly `days` days before now's calendar day is included
    precisely when now's time of day is midnight, and a row one day older
    is excluded for every now. -/
theorem date_boundary (nowDay days tod : Int) (h0 : 0 ≤ tod) (h1 : tod < 86400) :
    (find_brokers (tblB (nowDay - days)) ("x".toList) days ("exact".toList) none
        (nowDay * 86400 + tod) =
      Except.ok ⟨"x".toList, days, "exact".toList,
        if tod = 0 then ["B".toList] else []⟩) ∧
    find_brokers (tblB (nowDay - days - 1)) ("x".toList) days ("exact".toList) none
        (nowDay * 86400 + tod) =
      Except.ok ⟨"x".toList, days, "exact".toList, []⟩ := by
  have hfm : ∀ d : Int, firstMissing (tblB d).cols = none := fun _ => rfl
  constructor
  · by_cases htod : tod = 0
    · have hk : dateKeep (nowDay * 86400 + tod) days (nowDay - days) = true := by
        simp only [dateKeep, parse_date, decide_eq_true_eq, Int.sub_mul]
        omega
      unfold find_brokers
      rw [hfm]
      unfold dateFiltered
      rw [show List.filter (fun r => dateKeep (nowDay * 86400 + tod) days r.date)
          (tblB (nowDay - days)).rows =
          [⟨some ("B".toList), nowDay - days, some ("x".toList), none⟩] from by
        simp [tblB, List.filter, hk]]
      rw [if_pos htod]
      rfl
    · have hk : dateKeep (nowDay * 86400 + tod) days (nowDay - days) = false := by
        simp only [dateKeep, parse_date, decide_eq_false_iff_not, Int.sub_mul]
        omega
      unfold find_brokers
      rw [hfm]
      unfold dateFiltered
      rw [show List.filter (fun r => dateKeep (nowDay * 86400 + tod) days r.date)
          (tblB (nowDay - days)).rows = [] from by simp [tblB, List.filter, hk]]
      rw [if_neg htod]
      rfl
  · have hk : dateKeep (nowDay * 86400 + tod) days (nowDay - days - 1) = false := by
      simp only [dateKeep, parse_date, decide_eq_false_iff_not, Int.sub_mul]
      omega
    unfold find_brokers
    rw [hfm]
    unfold dateFiltered
    rw [show List.filter (fun r => dateKeep (nowDay * 86400 + tod) days r.date)
        (tblB (nowDay - days - 1)).rows = [] from by simp [tblB, List.filter, hk]]
    rfl

/-- Witness for the amended C6 at nowDay = 5, days = 2, tod = 0: the row
    dated day 3 is included, the row dated day 2 is excluded. -/
theorem date_boundary_witness :
    (find_brokers (tblB (5 - 2)) ("x".toList) 2 ("exact".toList) none
        (5 * 86400 + 0) =
      Except.ok ⟨"x".toList, 2, "exact".toList,
        if (0 : Int) = 0 then ["B".toList] else []⟩) ∧
    find_brokers (tblB (5 - 2 - 1)) ("x".toList) 2 ("exact".toList) none
        (5 * 86400 + 0) =
      Except.ok ⟨"x".toList, 2, "exact".toList, []⟩ :=
  date_boundary 5 2 0 (by norm_num) (by norm_num)

/-- Scorer embedding the WRatio values relevant to the C3 counterexample:
    100 on equal strings, 90 on the near-miss pair
    ("praim park", "praym park") — the indel similarity of that one-letter
    typo — and 0 elsewhere. It satisfies the WRatio facts assumed of the
    external scorer (at most 100, and 100 only on equal strings). -/
def typoScorer : List Char → List Char → ℚ := fun a b =>
  if a = b then 100
  else if a = "praim park".toList ∧ b = "praym park".toList then 90
  else 0

/-- A one-row dataset with broker "Bob" on object "Praym Park". -/
def tblPraym : Table :=
  ⟨requiredCols, [⟨some ("Bob".toList), 0, some ("Praym Park".toList), none⟩]⟩

/-- Counterexample to claim C3 as stated: on a fuzzy-only resolution
    (exact=false, score 90) `search_brokers` still aggregates and returns
    the broker list ["Bob"] in its result — aggregation is not suppressed;
    only the display is. -/
theorem search_brokers_fuzzy_aggregates :
    search_brokers typoScorer 0 tblPraym ("praim park".toList) =
      SearchResult.found ("praim park".toList) ("Praym Park".toList)
        ["Praym Park".toList] 60 ["Bob".toList] 90 false := by
  decide

/-- Claim C3 amended: for a fuzzy-only resolution (`exact=false`), the
    user-visible reply suppresses the broker list — `handle_message`
    answers with the re-prompt naming the guess, a reply shape carrying no
    broker list — although `search_brokers` itself still computes and
    returns the aggregated brokers inside its result. -/
theorem fuzzy_reply_suppresses_brokers (scorer : List Char → List Char → ℚ)
    (now : Int) (tbl : Table) (query qq obj : List Char)
    (objs brokers : List (List Char)) (d : Int) (s : ℚ)
    (h : search_brokers scorer now tbl query =
      SearchResult.found qq obj objs d brokers s false) :
    handleSearchReply (search_brokers scorer now tbl query) =
      Reply.fuzzyPrompt obj := by
  rw [h]
  rfl

/-- Witness for the amended C3 at the concrete fuzzy resolution of the
    counterexample dataset: the reply is the re-prompt for "Praym Park". -/
theorem fuzzy_reply_suppresses_brokers_witness :
    handleSearchReply (search_brokers typoScorer 0 tblPraym ("praim park".toList)) =
      Reply.fuzzyPrompt ("Praym Park".toList) :=
  fuzzy_reply_suppresses_brokers typoScorer 0 tblPraym ("praim park".toList)
    ("praim park".toList) ("Praym Park".toList) ["Praym Park".toList]
    ["Bob".toList] 60 90 (by decide)

/-- Unique extraction keeps every element not yet seen. -/
theorem mem_uniqueAux {x : List Char} :
    ∀ (l seen : List (List Char)), x ∈ l → ¬ x ∈ seen → x ∈ uniqueAux seen l := by
  intro l
  induction l with
  | nil => intro seen h _; simp at h
  | cons a t ih =>
    intro seen hx hs
    rw [uniqueAux]
    by_cases ha : a ∈ seen
    · rw [if_pos ha]
      rcases List.mem_cons.1 hx with rfl | h2
      · exact absurd ha hs
      · exact ih seen h2 hs
    · rw [if_neg ha]
      rcases List.mem_cons.1 hx with rfl | h2
      · exact List.mem_cons_self _ _
      · by_cases hxa : x = a
        · subst hxa; exact List.mem_cons_self _ _
        · refine List.mem_cons_of_mem _ (ih (a :: seen) h2 ?_)
          intro hmem
          rcases List.mem_cons.1 hmem with h3 | h3
          · exact hxa h3
          · exact hs h3

/-- Unique extraction keeps every element of the list. -/
theorem mem_uniqueFirst {x : List Char} {l : List (List Char)} (h : x ∈ l) :
    x ∈ uniqueFirst l :=
  mem_uniqueAux l [] h (by simp)

/-- Membership through sorted insertion. -/
theorem mem_insertSorted {y a : List Char} :
    ∀ l : List (List Char), y ∈ insertSorted a l ↔ y = a ∨ y ∈ l := by
  intro l
  induction l with
  | nil => simp [insertSorted]
  | cons b t ih =>
    rw [insertSorted]
    by_cases h : strLe a b = true
    · rw [if_pos h]
      simp [List.mem_cons]
    · rw [if_neg h]
      simp only [List.mem_cons, ih]
      tauto

/-- Sorting keeps every element of the list. -/
theorem mem_sortStr {y : List Char} : ∀ l : List (List Char), y ∈ l → y ∈ sortStr l := by
  intro l
  induction l with
  | nil => intro h; simp at h
  | cons a t ih =>
    intro h
    show y ∈ insertSorted a (sortStr t)
    rw [mem_insertSorted]
    rcases List.mem_cons.1 h with rfl | h2
    · exact Or.inl rfl
    · exact Or.inr (ih h2)

/-- A successful `load_data` returns the table unchanged. -/
theorem load_data_ok {tbl df : Table} (h : load_data tbl = Except.ok df) : df = tbl := by
  unfold load_data at h
  cases hf : firstMissing tbl.cols with
  | some c => rw [hf] at h; cases h
  | none =>
    rw [hf] at h
    injection h with h2
    exact h2.symm

/-- Dataset for the C4 counterexample: the single row is tagged "LUCKY", a
    casing variant of the configured group member "Lucky". -/
def tblLucky : Table :=
  ⟨requiredCols, [⟨some ("B".toList), 0, some ("LUCKY".toList), none⟩]⟩

/-- Counterexample to claim C4 as stated: the resolved entity is "LUCKY",
    whose synonym group is ["Lucky", "Lacky"]; the row's tag "LUCKY"
    normalizes equal to the member "Lucky" and the row passes the date
    filter, yet the aggregation compares raw strings (`isin`) and returns
    no brokers — the normalized-membership filtering the claim describes
    does not happen. -/
theorem aggregation_misses_normalized_variant :
    search_brokers eqScorer 0 tblLucky ("lucky".toList) =
      SearchResult.found ("lucky".toList) ("LUCKY".toList) [] 60 [] 100 true ∧
    normalize ("LUCKY".toList) = normalize ("Lucky".toList) ∧
    "Lucky".toList ∈ get_synonyms ("LUCKY".toList) ∧
    dateKeep 0 DAYS 0 = true := by
  refine ⟨by decide, by decide, by decide, by decide⟩

/-- Claim C4 amended: aggregation filters rows by raw (unnormalized)
    string equality of the row's object cell against the verbatim members
    of the resolved entity's synonym group: every date-kept row whose
    object literally equals a group member contributes its (stripped,
    non-blank) broker to the result, while spellings that merely normalize
    equal to a member are not included (see the counterexample). -/
theorem aggregation_includes_raw_member (scorer : List Char → List Char → ℚ)
    (now : Int) (tbl : Table) (query qq best : List Char)
    (objs brokers : List (List Char)) (d : Int) (s : ℚ) (ex : Bool)
    (row : Row) (v b : List Char)
    (hres : search_brokers scorer now tbl query =
      SearchResult.found qq best objs d brokers s ex)
    (hrow : row ∈ tbl.rows) (hdate : dateKeep now DAYS row.date = true)
    (hobj : row.obj = some v) (hsyn : v ∈ get_synonyms best)
    (hbrk : row.broker = some b) (hblank : ¬ pyStrip b = []) :
    pyStrip b ∈ brokers := by
  unfold search_brokers at hres
  cases hld : load_data tbl with
  | error e => rw [hld] at hres; cases hres
  | ok df =>
    simp only [hld] at hres
    have hdf : df = tbl := load_data_ok hld
    subst hdf
    by_cases hemp : (dateFiltered now DAYS df.rows).isEmpty = true
    · rw [if_pos hemp] at hres
      cases hres
    · rw [if_neg hemp] at hres
      rcases hfb : find_best_match scorer query
          (uniqueFirst ((dateFiltered now DAYS df.rows).filterMap (fun r => r.obj)))
        with ⟨m0, s0, e0⟩
      simp only [hfb] at hres
      cases m0 with
      | none => simp at hres
      | some m =>
        dsimp only at hres
        by_cases hm : m.isEmpty = true
        · rw [if_pos hm] at hres
          simp at hres
        · rw [if_neg hm] at hres
          simp only [SearchResult.found.injEq] at hres
          obtain ⟨hq, hbest, hobjs, hd, hbrokers, hs, hex⟩ := hres
          subst hbest
          rw [← hbrokers]
          unfold brokersOf
          apply mem_sortStr
          apply mem_uniqueFirst
          apply List.mem_filter.2
          constructor
          · refine List.mem_map.2 ⟨b, ?_, rfl⟩
            apply List.mem_filterMap.2
            refine ⟨row, ?_, hbrk⟩
            apply List.mem_filter.2
            refine ⟨List.mem_filter.2 ⟨hrow, hdate⟩, ?_⟩
            rw [hobj]
            simpa using hsyn
          · simpa using hblank

/-- Dataset for the C4 witness: the row is tagged exactly "Lucky". -/
def tblLuckyOk : Table :=
  ⟨requiredCols, [⟨some ("B".toList), 0, some ("Lucky".toList), none⟩]⟩

/-- Witness for the amended C4: with the row tagged verbatim "Lucky", its
    broker "B" appears in the aggregated broker list. -/
theorem aggregation_includes_raw_member_witness :
    pyStrip ("B".toList) ∈ ["B".toList] :=
  aggregation_includes_raw_member eqScorer 0 tblLuckyOk ("lucky".toList)
    ("lucky".toList) ("Lucky".toList) ["Lucky".toList] ["B".toList] 60 100 true
    ⟨some ("B".toList), 0, some ("Lucky".toList), none⟩ ("Lucky".toList) ("B".toList)
    (by decide) (by decide) (by decide) rfl (by decide) rfl (by decide)

end RossBot
